import Mathlib

/-!
Shallow embedding of the flowchart-reconstruction core of
`flowchart_from_image.py`.

The rendering target (Word), the YOLO detector and the OCR collaborator are
out of scope; the embedding keeps exactly the data the core computes from
already-detected boxes: shape bookkeeping (`draw_shapes`), the connection
pool (`build_connections_pool`, `find_nearest_connection`), arrow endpoint
resolution (`process_arrow_detections`), chain collapsing
(`collapse_arrow_chains`) and the two output documents (`build_chart_json`,
`build_nxn_matrix`).

Conventions of the embedding:
* Pixel coordinates are integers (Python `int`), derived points are exact
  rationals (Python floats); `x1 + width/2` becomes rational division.
* The comparison `math.hypot dx dy < best_dist` is embedded through squared
  distances (`dist2`): on nonnegative reals `d < b` iff `d^2 < b^2`, and the
  running `best_dist` is either the (nonnegative) threshold or a previously
  achieved distance, so the scan over squared distances returns the same
  node as the scan over distances.
* The global `connection_id_counter` is threaded explicitly: every function
  that calls `get_next_connection_id` takes and returns the counter value.
  The module-level initialization `connection_id_counter = 0` is
  `connectionCounterStart`.
* The `while queue:` loop of `collapse_arrow_chains` is embedded as fuelled
  recursion (`bfsAux`) returning `Option`: `some visited` is reached exactly
  when the loop exits because the queue is empty, `none` when the fuel is
  exhausted first.  `bfsFuel` is proved large enough below, so the `none`
  branch of the embedding is dead code, mirroring the source's unconditional
  termination.
* Python `set` values (`visited`, `final_edges`) are embedded as
  duplicate-free lists in insertion order; membership is what the proofs
  use, no claim depends on CPython's hash ordering.
-/

inductive ConnType where
  | shape
  | arrow
deriving DecidableEq, Repr

/-- A connection-node dictionary
`{'id': .., 'point': .., 'type': .., 'shape_id': .., 'side': ..}`. -/
structure Conn where
  id : Nat
  point : ℚ × ℚ
  type : ConnType
  shape_id : Option Nat
  side : Option String
deriving DecidableEq, Repr

/-- One YOLO box: `class_id` plus the `x1, y1, x2, y2` corner coordinates. -/
structure Det where
  class_id : Nat
  x1 : Int
  y1 : Int
  x2 : Int
  y2 : Int
deriving DecidableEq, Repr

/-- One entry of `shape_positions`:
`(shape_id, class_id, x1, y1, width, height, cx, cy, edge_centers, shape_obj)`
with the Word shape object dropped (out-of-scope collaborator) and the
`edge_centers` dictionary flattened into its four fixed keys. -/
structure Shape where
  id : Nat
  class_id : Nat
  x1 : Int
  y1 : Int
  width : Int
  height : Int
  cx : ℚ
  cy : ℚ
  edge_top : ℚ × ℚ
  edge_bottom : ℚ × ℚ
  edge_left : ℚ × ℚ
  edge_right : ℚ × ℚ
deriving DecidableEq, Repr

/-- `SHAPE_MAP.get(class_id, None)`: the stored `5: None` entry and a missing
key both yield `None`, so they collapse to `none`. -/
def SHAPE_MAP (c : Nat) : Option Nat :=
  match c with
  | 4 => some 4
  | 6 => some 67
  | 7 => some 1
  | 8 => some 2
  | 9 => some 9
  | _ => none

/-- `SHAPE_NAME_MAP` as a dictionary: `some none` is the stored `5: None`
entry, `none` is a missing key (they differ under `dict.get` with a default). -/
def SHAPE_NAME_MAP (c : Nat) : Option (Option String) :=
  match c with
  | 4 => some (some "Decision")
  | 5 => some none
  | 6 => some (some "Output")
  | 7 => some (some "Process")
  | 8 => some (some "Scan (input)")
  | 9 => some (some "Start/End")
  | _ => none

/-- `get_next_connection_id` with the global counter passed explicitly:
returns the fresh id and the advanced counter. -/
def get_next_connection_id (c : Nat) : Nat × Nat := (c, c + 1)

/-- Module-level `connection_id_counter = 0`. -/
def connectionCounterStart : Nat := 0

/-- Loop body of `draw_shapes`: skip arrow classes (`0..3`), class `5`, and
classes `SHAPE_MAP` sends to `None`; otherwise append a shape whose id is the
current length of `shape_positions`. -/
def drawStep (acc : List Shape) (d : Det) : List Shape :=
  if d.class_id ∉ ([0, 1, 2, 3] : List Nat) ∧ d.class_id ≠ 5 then
    match SHAPE_MAP d.class_id with
    | none => acc
    | some _ =>
      let width := d.x2 - d.x1
      let height := d.y2 - d.y1
      let cx : ℚ := (d.x1 : ℚ) + (width : ℚ) / 2
      let cy : ℚ := (d.y1 : ℚ) + (height : ℚ) / 2
      acc ++ [{ id := acc.length, class_id := d.class_id, x1 := d.x1, y1 := d.y1,
                width := width, height := height, cx := cx, cy := cy,
                edge_top := (cx, (d.y1 : ℚ)),
                edge_bottom := (cx, (d.y1 : ℚ) + (height : ℚ)),
                edge_left := ((d.x1 : ℚ), cy),
                edge_right := ((d.x1 : ℚ) + (width : ℚ), cy) }]
  else acc

/-- `draw_shapes` restricted to its returned data (the Word drawing calls are
side effects on the out-of-scope rendering collaborator). -/
def draw_shapes (results : List Det) : List Shape :=
  results.foldl drawStep []

/-- Loop body of `build_connections_pool`: one `shape`-typed node per edge
center, in the dictionary insertion order top, bottom, left, right, each
taking a fresh id from the global counter. -/
def seedStep (acc : List Conn × Nat) (sh : Shape) : List Conn × Nat :=
  let (i1, c1) := get_next_connection_id acc.2
  let (i2, c2) := get_next_connection_id c1
  let (i3, c3) := get_next_connection_id c2
  let (i4, c4) := get_next_connection_id c3
  (acc.1 ++
    [ { id := i1, point := sh.edge_top, type := ConnType.shape,
        shape_id := some sh.id, side := some "top" },
      { id := i2, point := sh.edge_bottom, type := ConnType.shape,
        shape_id := some sh.id, side := some "bottom" },
      { id := i3, point := sh.edge_left, type := ConnType.shape,
        shape_id := some sh.id, side := some "left" },
      { id := i4, point := sh.edge_right, type := ConnType.shape,
        shape_id := some sh.id, side := some "right" } ], c4)

def build_connections_pool (shape_positions : List Shape) (c0 : Nat) :
    List Conn × Nat :=
  shape_positions.foldl seedStep ([], c0)

/-- Squared Euclidean distance; stands for `math.hypot dx dy` squared. -/
def dist2 (p q : ℚ × ℚ) : ℚ := (p.1 - q.1) ^ 2 + (p.2 - q.2) ^ 2

/-- The `for conn in pool` scan of `find_nearest_connection`, carrying
`(best, best_dist)` with distances squared. -/
def findBest (candidate : ℚ × ℚ) : List Conn → Option Conn × ℚ → Option Conn × ℚ
  | [], acc => acc
  | conn :: rest, (best, bd) =>
    if dist2 candidate conn.point < bd then
      findBest candidate rest (some conn, dist2 candidate conn.point)
    else
      findBest candidate rest (best, bd)

/-- `find_nearest_connection`: scan the pool with `best_dist` initialized to
the threshold; if no node is strictly closer, synthesize an `'arrow'`-typed
(floating) node at the candidate point, append it and return it. -/
def find_nearest_connection (candidate : ℚ × ℚ) (pool : List Conn)
    (threshold : ℚ) (c0 : Nat) : Conn × List Conn × Nat :=
  match findBest candidate pool (none, threshold * threshold) with
  | (some best, _) => (best, pool, c0)
  | (none, _) =>
    let (cid, c1) := get_next_connection_id c0
    let best : Conn :=
      { id := cid, point := candidate, type := ConnType.arrow,
        shape_id := none, side := none }
    (best, pool ++ [best], c1)

/-- The orientation dispatch of `process_arrow_detections`: tail and tip
candidate points by arrow class (0, 3, 1, 2 in source branch order); any
other class hits the `else: continue` branch. -/
def arrowCandidates (d : Det) : Option ((ℚ × ℚ) × (ℚ × ℚ)) :=
  if d.class_id = 0 then
    some ((((d.x1 : ℚ) + (d.x2 : ℚ)) / 2, (d.y1 : ℚ)),
          (((d.x1 : ℚ) + (d.x2 : ℚ)) / 2, (d.y2 : ℚ)))
  else if d.class_id = 3 then
    some ((((d.x1 : ℚ) + (d.x2 : ℚ)) / 2, (d.y2 : ℚ)),
          (((d.x1 : ℚ) + (d.x2 : ℚ)) / 2, (d.y1 : ℚ)))
  else if d.class_id = 1 then
    some (((d.x2 : ℚ), ((d.y1 : ℚ) + (d.y2 : ℚ)) / 2),
          ((d.x1 : ℚ), ((d.y1 : ℚ) + (d.y2 : ℚ)) / 2))
  else if d.class_id = 2 then
    some (((d.x1 : ℚ), ((d.y1 : ℚ) + (d.y2 : ℚ)) / 2),
          ((d.x2 : ℚ), ((d.y1 : ℚ) + (d.y2 : ℚ)) / 2))
  else none

/-- One resolved arrow
`{'class_id', 'bbox', 'tail_candidate', 'tip_candidate', 'tail', 'tip'}`. -/
structure ArrowConn where
  class_id : Nat
  bbox : Int × Int × Int × Int
  tail_candidate : ℚ × ℚ
  tip_candidate : ℚ × ℚ
  tail : Conn
  tip : Conn
deriving DecidableEq, Repr

/-- Loop body of the second loop of `process_arrow_detections`: compute the
two candidates, snap each through the pool (threshold 50), append the arrow
record.  The `AddLine` call targets the out-of-scope renderer. -/
def processStep (acc : List ArrowConn × List Conn × Nat) (d : Det) :
    List ArrowConn × List Conn × Nat :=
  match arrowCandidates d with
  | none => acc
  | some (tail_candidate, tip_candidate) =>
    let (tail_conn, pool1, c1) :=
      find_nearest_connection tail_candidate acc.2.1 50 acc.2.2
    let (tip_conn, pool2, c2) :=
      find_nearest_connection tip_candidate pool1 50 c1
    (acc.1 ++ [{ class_id := d.class_id, bbox := (d.x1, d.y1, d.x2, d.y2),
                 tail_candidate := tail_candidate,
                 tip_candidate := tip_candidate,
                 tail := tail_conn, tip := tip_conn }], pool2, c2)

/-- `process_arrow_detections`: first collect boxes with class in
`[0, 1, 2, 3]` into `arrow_detections`, then resolve each in order. -/
def process_arrow_detections (results : List Det) (connections_pool : List Conn)
    (c0 : Nat) : List ArrowConn × List Conn × Nat :=
  let arrow_detections :=
    results.filter (fun d => d.class_id ∈ ([0, 1, 2, 3] : List Nat))
  arrow_detections.foldl processStep ([], connections_pool, c0)

/-- `get_node_by_id`: first pool node with the given id. -/
def get_node_by_id (node_id : Nat) : List Conn → Option Conn
  | [] => none
  | conn :: rest =>
    if conn.id = node_id then some conn else get_node_by_id node_id rest

/-- The `defaultdict(list)` adjacency built by
`graph[tail['id']].append(tip['id'])`: tips of arrows with the given tail id,
in arrow order; a missing key reads as the empty list. -/
def adjOf (arrow_connections : List ArrowConn) (n : Nat) : List Nat :=
  (arrow_connections.filter (fun a => a.tail.id = n)).map (fun a => a.tip.id)

/-- The `while queue:` BFS of `collapse_arrow_chains` with explicit fuel.
Pops the front of the queue, skips already-visited ids, otherwise marks the
id visited and enqueues its unvisited neighbors.  `some visited` is the
normal exit (empty queue); `none` means the fuel ran out first. -/
def bfsAux (adj : Nat → List Nat) : Nat → List Nat → List Nat → Option (List Nat)
  | _, visited, [] => some visited
  | 0, _, _ :: _ => none
  | fuel + 1, visited, current :: queue =>
    if current ∈ visited then bfsAux adj fuel visited queue
    else
      bfsAux adj fuel (current :: visited)
        (queue ++ (adj current).filter (fun nb => nb ∉ current :: visited))

/-- Fuel bound for `bfsAux`; proved sufficient for every seed below. -/
def bfsFuel (arrow_connections : List ArrowConn) : Nat :=
  (arrow_connections.length + 2) * (arrow_connections.length + 2) + 1

/-- `final_edges.add(e)` on the set embedded as a duplicate-free list. -/
def insertEdge (s : List (Option Nat × Option Nat)) (e : Option Nat × Option Nat) :
    List (Option Nat × Option Nat) :=
  if e ∈ s then s else s ++ [e]

/-- The edge-recording done once per id the BFS marks visited: skip the seed
id, look the id up in the pool, and when the node is a shape anchor record
`(start_shape, node['shape_id'])`. -/
def recordEdges (pool : List Conn) (start_id : Nat) (start_shape : Option Nat)
    (visited : List Nat) (acc : List (Option Nat × Option Nat)) :
    List (Option Nat × Option Nat) :=
  visited.foldl (fun acc2 cid =>
    if cid = start_id then acc2
    else
      match get_node_by_id cid pool with
      | some node =>
        if node.type = ConnType.shape then
          insertEdge acc2 (start_shape, node.shape_id)
        else acc2
      | none => acc2) acc

/-- Outer loop body of `collapse_arrow_chains`: for every `shape`-typed pool
node run the BFS from its id and record edges to the shape anchors reached. -/
def collapseStep (pool : List Conn) (arrow_connections : List ArrowConn)
    (acc : List (Option Nat × Option Nat)) (conn : Conn) :
    List (Option Nat × Option Nat) :=
  if conn.type = ConnType.shape then
    recordEdges pool conn.id conn.shape_id
      ((bfsAux (adjOf arrow_connections) (bfsFuel arrow_connections)
          [] [conn.id]).getD []) acc
  else acc

/-- `collapse_arrow_chains`: BFS from every shape anchor over the tail-to-tip
adjacency, then drop self-loops. -/
def collapse_arrow_chains (connections_pool : List Conn)
    (arrow_connections : List ArrowConn) : List (Option Nat × Option Nat) :=
  (connections_pool.foldl (collapseStep connections_pool arrow_connections) []).filter
    (fun e => e.1 ≠ e.2)

/-- One entry of the matrix document's `shapes` list. -/
structure ShapeMeta where
  id : Nat
  class_id : Nat
  name : Option String
  bbox : Int × Int × Int × Int
  center : ℚ × ℚ
deriving DecidableEq, Repr

/-- `matrix[i][j] = 1` as Python executes it: succeeds exactly when both
indexes are in range, otherwise the statement raises (IndexError). -/
def matrixSet (m : List (List Nat)) (i j : Nat) : Option (List (List Nat)) :=
  if i < m.length ∧ j < (m.getD i []).length then
    some (m.set i ((m.getD i []).set j 1))
  else none

/-- One `matrix[i][j] = 1` assignment of the edge loop: a coordinate that is
`None` (or a matrix already aborted) propagates the exception as `none`. -/
def matrixStep (acc : Option (List (List Nat))) (e : Option Nat × Option Nat) :
    Option (List (List Nat)) :=
  acc.bind (fun m =>
    match e with
    | (some i, some j) => matrixSet m i j
    | _ => none)

/-- `build_nxn_matrix`: `none` models the run aborting with an exception
(an edge coordinate that is `None` or out of range). -/
def build_nxn_matrix (shape_positions : List Shape)
    (final_edges : List (Option Nat × Option Nat)) :
    Option (List (List Nat) × List ShapeMeta) :=
  let n := shape_positions.length
  let init : List (List Nat) := List.replicate n (List.replicate n 0)
  let matrix := final_edges.foldl matrixStep (some init)
  matrix.map (fun m =>
    (m, shape_positions.map (fun sh =>
      { id := sh.id, class_id := sh.class_id,
        name := (SHAPE_NAME_MAP sh.class_id).getD
          (some ("Class " ++ toString sh.class_id)),
        bbox := (sh.x1, sh.y1, sh.width, sh.height),
        center := (sh.cx, sh.cy) })))

/-- One entry of the graph document's `nodes` list. -/
structure ChartNode where
  id : Nat
  class_id : Nat
  name : Option String
  bbox : Int × Int × Int × Int
  center : ℚ × ℚ
  edge_centers : (ℚ × ℚ) × (ℚ × ℚ) × (ℚ × ℚ) × (ℚ × ℚ)
  ocr_text : String
deriving DecidableEq, Repr

/-- The graph document emitted by `build_chart_json`.  The serialized arrow
records repeat the `ArrowConn` fields verbatim, so the list is kept as is. -/
structure ChartDoc where
  nodes : List ChartNode
  edges : List (Option Nat × Option Nat)
  shapeMapEntries : List (String × Option String)
  arrows : List ArrowConn
deriving DecidableEq, Repr

/-- `{str(k): v for k, v in SHAPE_NAME_MAP.items()}`. -/
def shapeMapSerialized : List (String × Option String) :=
  [("4", some "Decision"), ("5", none), ("6", some "Output"),
   ("7", some "Process"), ("8", some "Scan (input)"), ("9", some "Start/End")]

def build_chart_json (shape_positions : List Shape)
    (final_edges : List (Option Nat × Option Nat))
    (arrow_connections : List ArrowConn) (ocr_dict : Nat → Option String) :
    ChartDoc :=
  { nodes := shape_positions.map (fun sh =>
      { id := sh.id, class_id := sh.class_id,
        name := (SHAPE_NAME_MAP sh.class_id).getD none,
        bbox := (sh.x1, sh.y1, sh.width, sh.height),
        center := (sh.cx, sh.cy),
        edge_centers := (sh.edge_top, sh.edge_bottom, sh.edge_left, sh.edge_right),
        ocr_text := (ocr_dict sh.id).getD "" }),
    edges := final_edges,
    shapeMapEntries := shapeMapSerialized,
    arrows := arrow_connections }

/-- The graph-reconstruction steps of `main` from the module-initial counter
state to the two output documents, as a function of the detection list and
the OCR table (an out-of-scope collaborator, identical across the runs the
determinism property compares). -/
def runDocuments (results : List Det) (ocr_dict : Nat → Option String) :
    ChartDoc × Option (List (List Nat) × List ShapeMeta) :=
  let shape_positions := draw_shapes results
  let pc := build_connections_pool shape_positions connectionCounterStart
  let plc := process_arrow_detections results pc.1 pc.2
  let final_edges := collapse_arrow_chains plc.2.1 plc.1
  (build_chart_json shape_positions final_edges plc.1 ocr_dict,
   build_nxn_matrix shape_positions final_edges)

/-! ### Concrete inputs reused by several witnesses -/

/-- Two process boxes and one rightward arrow between them. -/
def detsW : List Det :=
  [ { class_id := 7, x1 := 0, y1 := 0, x2 := 10, y2 := 10 },
    { class_id := 7, x1 := 100, y1 := 0, x2 := 110, y2 := 10 },
    { class_id := 2, x1 := 10, y1 := 5, x2 := 100, y2 := 5 } ]

/-- An empty OCR table. -/
def ocrW : Nat → Option String := fun _ => none

/-- Shape A's anchor at the origin, shape B's anchor at (200, 0), and a
floating node at (100, 0): the pool of the spec's transitive-chain example. -/
def poolW : List Conn :=
  [ { id := 0, point := (0, 0), type := ConnType.shape,
      shape_id := some 0, side := some "top" },
    { id := 1, point := (200, 0), type := ConnType.shape,
      shape_id := some 1, side := some "top" },
    { id := 2, point := (100, 0), type := ConnType.arrow,
      shape_id := none, side := none } ]

/-- Two arrows forming the chain A-anchor -> floating node -> B-anchor;
neither spans A to B directly. -/
def arrowsW : List ArrowConn :=
  [ { class_id := 2, bbox := (0, -5, 100, 5), tail_candidate := (0, 0),
      tip_candidate := (100, 0),
      tail := { id := 0, point := (0, 0), type := ConnType.shape,
                shape_id := some 0, side := some "top" },
      tip := { id := 2, point := (100, 0), type := ConnType.arrow,
               shape_id := none, side := none } },
    { class_id := 2, bbox := (100, -5, 200, 5), tail_candidate := (100, 0),
      tip_candidate := (200, 0),
      tail := { id := 2, point := (100, 0), type := ConnType.arrow,
                shape_id := none, side := none },
      tip := { id := 1, point := (200, 0), type := ConnType.shape,
               shape_id := some 1, side := some "top" } } ]

/-! ### C2: determinism of the document pipeline -/

/-- C2: given identical shape/arrow detection lists (and the same OCR table,
which is fixed by the image), two runs of the reconstruction pipeline — each
starting from the module-initial counter state as `runDocuments` does —
produce equal graph and matrix documents; in particular the connection-node
ids recorded in the arrow section agree between the runs.  The global id
counter is explicit state in the embedding, so the documents are a pure
function of the inputs. -/
theorem runDocuments_deterministic (results1 results2 : List Det)
    (ocr1 ocr2 : Nat → Option String) (hres : results1 = results2)
    (hocr : ocr1 = ocr2) :
    runDocuments results1 ocr1 = runDocuments results2 ocr2 ∧
    (runDocuments results1 ocr1).1.arrows.map (fun a => (a.tail.id, a.tip.id)) =
      (runDocuments results2 ocr2).1.arrows.map (fun a => (a.tail.id, a.tip.id)) := by
  subst hres
  subst hocr
  exact ⟨rfl, rfl⟩

theorem runDocuments_deterministic_witness :
    runDocuments detsW ocrW = runDocuments detsW ocrW ∧
    (runDocuments detsW ocrW).1.arrows.map (fun a => (a.tail.id, a.tip.id)) =
      (runDocuments detsW ocrW).1.arrows.map (fun a => (a.tail.id, a.tip.id)) :=
  runDocuments_deterministic detsW detsW ocrW ocrW rfl rfl

/-! ### C8: tail/tip candidates by orientation class -/

/-- C8: for every recognized arrow detection, the tail and tip candidates
are the midpoints of the bounding box's opposing edges chosen by class:
class 0 ("points down") gives tail (mid-x, y1) and tip (mid-x, y2);
class 3 ("points up") gives tail (mid-x, y2) and tip (mid-x, y1);
class 2 ("points right") gives tail (x1, mid-y) and tip (x2, mid-y);
class 1 ("points left") gives tail (x2, mid-y) and tip (x1, mid-y). -/
theorem arrow_candidate_geometry (x1 y1 x2 y2 : Int) (pool : List Conn) (c0 : Nat) :
    ((process_arrow_detections [⟨0, x1, y1, x2, y2⟩] pool c0).1.map
        (fun a => (a.tail_candidate, a.tip_candidate)) =
      [((((x1 : ℚ) + (x2 : ℚ)) / 2, (y1 : ℚ)),
        (((x1 : ℚ) + (x2 : ℚ)) / 2, (y2 : ℚ)))]) ∧
    ((process_arrow_detections [⟨3, x1, y1, x2, y2⟩] pool c0).1.map
        (fun a => (a.tail_candidate, a.tip_candidate)) =
      [((((x1 : ℚ) + (x2 : ℚ)) / 2, (y2 : ℚ)),
        (((x1 : ℚ) + (x2 : ℚ)) / 2, (y1 : ℚ)))]) ∧
    ((process_arrow_detections [⟨2, x1, y1, x2, y2⟩] pool c0).1.map
        (fun a => (a.tail_candidate, a.tip_candidate)) =
      [(((x1 : ℚ), ((y1 : ℚ) + (y2 : ℚ)) / 2),
        ((x2 : ℚ), ((y1 : ℚ) + (y2 : ℚ)) / 2))]) ∧
    ((process_arrow_detections [⟨1, x1, y1, x2, y2⟩] pool c0).1.map
        (fun a => (a.tail_candidate, a.tip_candidate)) =
      [(((x2 : ℚ), ((y1 : ℚ) + (y2 : ℚ)) / 2),
        ((x1 : ℚ), ((y1 : ℚ) + (y2 : ℚ)) / 2))]) :=
  ⟨rfl, rfl, rfl, rfl⟩

/-! ### C3: skip behavior of `process_arrow_detections` -/

/-- C3 counterexample: an arrow detection whose bounding box has zero width
(class 1, x1 = x2 = 0) is not skipped — `process_arrow_detections` produces
an ArrowLink for it, contradicting the claim that degenerate boxes yield no
ArrowLink. -/
theorem degenerate_box_produces_link :
    (process_arrow_detections
        [{ class_id := 1, x1 := 0, y1 := 0, x2 := 0, y2 := 10 }] [] 0).1.length = 1 := by
  rfl

/-- C3 (amended): a detection whose class is not an arrow class (not in
0..3) contributes no ArrowLink and raises no error, leaving the result for
all other detections unchanged; but a recognized arrow detection always
produces exactly one ArrowLink, even when its box has zero width or height
(there is no degeneracy check in the source). -/
theorem process_arrow_detections_skip_behavior :
    (∀ (l1 l2 : List Det) (d : Det) (pool : List Conn) (c0 : Nat),
        d.class_id ∉ ([0, 1, 2, 3] : List Nat) →
        process_arrow_detections (l1 ++ d :: l2) pool c0 =
          process_arrow_detections (l1 ++ l2) pool c0) ∧
    (∀ (d : Det) (pool : List Conn) (c0 : Nat),
        d.class_id ∈ ([0, 1, 2, 3] : List Nat) →
        (process_arrow_detections [d] pool c0).1.length = 1) := by
  constructor
  · intro l1 l2 d pool c0 h
    simp only [process_arrow_detections, List.filter_append, List.filter_cons]
    simp [h]
  · intro d pool c0 h
    simp only [List.mem_cons, List.not_mem_nil, or_false] at h
    rcases h with h | h | h | h <;>
      simp [process_arrow_detections, List.filter, processStep, arrowCandidates, h]

theorem process_arrow_detections_skip_witness :
    process_arrow_detections
        ([] ++ { class_id := 7, x1 := 0, y1 := 0, x2 := 5, y2 := 5 } :: []) [] 0 =
      process_arrow_detections ([] ++ []) [] 0 :=
  process_arrow_detections_skip_behavior.1 [] []
    { class_id := 7, x1 := 0, y1 := 0, x2 := 5, y2 := 5 } [] 0 (by decide)

/-! ### The pool scan: characterization of `findBest` -/

/-- The scan's running best distance never increases, ends below every
scanned node's distance, and either the accumulator survives untouched or
the result is the first node that beats everything before it. -/
theorem findBest_spec (candidate : ℚ × ℚ) :
    ∀ (l : List Conn) (b0 : Option Conn) (d0 : ℚ),
      (findBest candidate l (b0, d0)).2 ≤ d0 ∧
      (∀ conn ∈ l, (findBest candidate l (b0, d0)).2 ≤ dist2 candidate conn.point) ∧
      (findBest candidate l (b0, d0) = (b0, d0) ∨
        ∃ pre r post, l = pre ++ r :: post ∧
          (findBest candidate l (b0, d0)).1 = some r ∧
          (findBest candidate l (b0, d0)).2 = dist2 candidate r.point ∧
          dist2 candidate r.point < d0 ∧
          ∀ conn ∈ pre, dist2 candidate r.point < dist2 candidate conn.point) := by
  intro l
  induction l with
  | nil =>
    intro b0 d0
    refine ⟨le_refl _, ?_, Or.inl rfl⟩
    intro conn hconn
    exact absurd hconn (List.not_mem_nil conn)
  | cons c rest ih =>
    intro b0 d0
    by_cases h : dist2 candidate c.point < d0
    · have hfb : findBest candidate (c :: rest) (b0, d0) =
          findBest candidate rest (some c, dist2 candidate c.point) := by
        simp [findBest, h]
      obtain ⟨ih1, ih2, ih3⟩ := ih (some c) (dist2 candidate c.point)
      rw [hfb]
      refine ⟨le_of_lt (lt_of_le_of_lt ih1 h), ?_, ?_⟩
      · intro conn hconn
        rcases List.mem_cons.mp hconn with hconn | hconn
        · rw [hconn]; exact ih1
        · exact ih2 conn hconn
      · rcases ih3 with heq | ⟨pre, r, post, hsplit, h1, h2, h3, h4⟩
        · refine Or.inr ⟨[], c, rest, rfl, ?_, ?_, h, ?_⟩
          · rw [heq]
          · rw [heq]
          · intro conn hconn
            exact absurd hconn (List.not_mem_nil conn)
        · refine Or.inr ⟨c :: pre, r, post, by rw [hsplit, List.cons_append], h1, h2, lt_trans h3 h, ?_⟩
          intro conn hconn
          rcases List.mem_cons.mp hconn with hconn | hconn
          · rw [hconn]; exact h3
          · exact h4 conn hconn
    · have hfb : findBest candidate (c :: rest) (b0, d0) =
          findBest candidate rest (b0, d0) := by
        simp [findBest, h]
      obtain ⟨ih1, ih2, ih3⟩ := ih b0 d0
      rw [hfb]
      refine ⟨ih1, ?_, ?_⟩
      · intro conn hconn
        rcases List.mem_cons.mp hconn with hconn | hconn
        · rw [hconn]
          exact le_trans ih1 (not_lt.mp h)
        · exact ih2 conn hconn
      · rcases ih3 with heq | ⟨pre, r, post, hsplit, h1, h2, h3, h4⟩
        · exact Or.inl heq
        · refine Or.inr ⟨c :: pre, r, post, by rw [hsplit, List.cons_append], h1, h2, h3, ?_⟩
          intro conn hconn
          rcases List.mem_cons.mp hconn with hconn | hconn
          · rw [hconn]
            exact lt_of_lt_of_le h3 (not_lt.mp h)
          · exact h4 conn hconn

/-- Helper: squared distances are nonnegative. -/
theorem dist2_nonneg (p q : ℚ × ℚ) : 0 ≤ dist2 p q :=
  add_nonneg (sq_nonneg _) (sq_nonneg _)

/-- Helper: the squared distance from a point to itself is zero. -/
theorem dist2_self (p : ℚ × ℚ) : dist2 p p = 0 := by
  simp [dist2]

/-- Case analysis for one `find_nearest_connection` call: either the scan
found a strictly-closer node (the first one achieving the minimum) and the
pool and counter are untouched, or no node beats the threshold and a fresh
floating node is appended. -/
theorem find_nearest_cases (candidate : ℚ × ℚ) (pool : List Conn)
    (threshold : ℚ) (c0 : Nat) :
    (∃ b, find_nearest_connection candidate pool threshold c0 = (b, pool, c0) ∧
      (∃ pre post, pool = pre ++ b :: post ∧
        ∀ conn ∈ pre, dist2 candidate b.point < dist2 candidate conn.point) ∧
      dist2 candidate b.point < threshold * threshold ∧
      (∀ conn ∈ pool, dist2 candidate b.point ≤ dist2 candidate conn.point)) ∨
    ((∀ conn ∈ pool, threshold * threshold ≤ dist2 candidate conn.point) ∧
      find_nearest_connection candidate pool threshold c0 =
        ({ id := c0, point := candidate, type := ConnType.arrow,
           shape_id := none, side := none },
         pool ++ [{ id := c0, point := candidate, type := ConnType.arrow,
                    shape_id := none, side := none }], c0 + 1)) := by
  obtain ⟨hle, hmin, hcases⟩ :=
    findBest_spec candidate pool none (threshold * threshold)
  rcases hfb : findBest candidate pool (none, threshold * threshold) with ⟨ob, d⟩
  rw [hfb] at hle hmin hcases
  cases ob with
  | some b =>
    refine Or.inl ⟨b, by simp [find_nearest_connection, hfb], ?_⟩
    rcases hcases with heq | ⟨pre, r', post, hsplit, h1, h2, h3, h4⟩
    · simp at heq
    · have hb2 : b = r' := Option.some.inj h1
      subst hb2
      simp only at h2
      refine ⟨⟨pre, post, hsplit, h4⟩, h3, ?_⟩
      intro conn hconn
      have := hmin conn hconn
      rw [h2] at this
      exact this
  | none =>
    have hd : d = threshold * threshold := by
      rcases hcases with heq | ⟨pre, r', post, hsplit, h1, h2, h3, h4⟩
      · exact (Prod.mk.injEq _ _ _ _ ▸ heq).2
      · simp at h1
    refine Or.inr ⟨?_, by simp [find_nearest_connection, hfb, get_next_connection_id]⟩
    intro conn hconn
    have := hmin conn hconn
    simp only at this
    rw [hd] at this
    exact this

/-! ### C4: snap correctness of `find_nearest_connection` -/

/-- C4: if some pool node lies strictly within the threshold of the
candidate (squared distances stand for squared thresholds, faithful since
distances and thresholds are nonnegative), the call returns the first pool
node of minimum distance — it beats every node before it strictly and every
node in the pool weakly — and leaves the pool and the id counter unchanged;
otherwise it synthesizes exactly one new floating (`'arrow'`-typed) node
carrying the candidate point and the fresh id, appends it to the pool, and
returns it. -/
theorem find_nearest_connection_spec (candidate : ℚ × ℚ) (pool : List Conn)
    (threshold : ℚ) (c0 : Nat) (r : Conn) (pool2 : List Conn) (c2 : Nat)
    (hrun : find_nearest_connection candidate pool threshold c0 = (r, pool2, c2)) :
    ((∃ conn ∈ pool, dist2 candidate conn.point < threshold * threshold) →
      (∃ pre post, pool = pre ++ r :: post ∧
        ∀ conn ∈ pre, dist2 candidate r.point < dist2 candidate conn.point) ∧
      dist2 candidate r.point < threshold * threshold ∧
      (∀ conn ∈ pool, dist2 candidate r.point ≤ dist2 candidate conn.point) ∧
      pool2 = pool ∧ c2 = c0) ∧
    ((¬ ∃ conn ∈ pool, dist2 candidate conn.point < threshold * threshold) →
      r = { id := c0, point := candidate, type := ConnType.arrow,
            shape_id := none, side := none } ∧
      pool2 = pool ++ [r] ∧ c2 = c0 + 1) := by
  rcases find_nearest_cases candidate pool threshold c0 with
    ⟨b, heq, hsplit, hclose, hmin⟩ | ⟨hfar, heq⟩
  · rw [heq] at hrun
    simp only [Prod.mk.injEq] at hrun
    obtain ⟨hb, hpool, hc⟩ := hrun
    subst hb
    subst hpool
    subst hc
    constructor
    · intro _
      exact ⟨hsplit, hclose, hmin, rfl, rfl⟩
    · intro hno
      obtain ⟨pre, post, hs, _⟩ := hsplit
      exact absurd ⟨b, (by
        rw [hs]
        exact List.mem_append_right pre (List.mem_cons_self b post)), hclose⟩ hno
  · rw [heq] at hrun
    simp only [Prod.mk.injEq] at hrun
    obtain ⟨hb, hpool, hc⟩ := hrun
    constructor
    · intro hyes
      obtain ⟨conn, hconn, hclose⟩ := hyes
      exact absurd hclose (not_lt.mpr (hfar conn hconn))
    · intro _
      exact ⟨hb.symm, by rw [← hpool, hb], hc.symm⟩

/-- The head of `poolW`: shape A's anchor node. -/
def connA : Conn :=
  { id := 0, point := (0, 0), type := ConnType.shape,
    shape_id := some 0, side := some "top" }

theorem find_nearest_connection_spec_witness :
    ((∃ conn ∈ poolW, dist2 (0, 0) conn.point < 50 * 50) →
      (∃ pre post, poolW = pre ++ connA :: post ∧
        ∀ conn ∈ pre, dist2 (0, 0) connA.point < dist2 (0, 0) conn.point) ∧
      dist2 (0, 0) connA.point < 50 * 50 ∧
      (∀ conn ∈ poolW, dist2 (0, 0) connA.point ≤ dist2 (0, 0) conn.point) ∧
      poolW = poolW ∧ (12 : Nat) = 12) ∧
    ((¬ ∃ conn ∈ poolW, dist2 (0, 0) conn.point < 50 * 50) →
      connA = { id := 12, point := (0, 0), type := ConnType.arrow,
                shape_id := none, side := none } ∧
      poolW = poolW ++ [connA] ∧ (12 : Nat) = 12 + 1) :=
  find_nearest_connection_spec (0, 0) poolW 50 12 connA poolW 12
    (by norm_num [find_nearest_connection, findBest, dist2, poolW, connA])

/-! ### C7: idempotent re-snap -/

/-- C7: with a positive threshold, resolving the same candidate point twice
in sequence returns a node with the same id both times, and the second call
changes neither the pool nor the id counter.  (If the first call created a
floating node, that node now sits at distance zero from the candidate, so
the second scan returns it instead of creating a duplicate.) -/
theorem find_nearest_connection_idempotent (candidate : ℚ × ℚ)
    (pool : List Conn) (threshold : ℚ) (c0 : Nat) (hthr : 0 < threshold)
    (r1 : Conn) (pool1 : List Conn) (c1 : Nat)
    (h1 : find_nearest_connection candidate pool threshold c0 = (r1, pool1, c1))
    (r2 : Conn) (pool2 : List Conn) (c2 : Nat)
    (h2 : find_nearest_connection candidate pool1 threshold c1 = (r2, pool2, c2)) :
    r2.id = r1.id ∧ pool2 = pool1 ∧ c2 = c1 := by
  have hthr2 : 0 < threshold * threshold := mul_pos hthr hthr
  rcases find_nearest_cases candidate pool threshold c0 with
    ⟨b, heq, _, _, _⟩ | ⟨hfar, heq⟩
  · rw [heq] at h1
    simp only [Prod.mk.injEq] at h1
    obtain ⟨hb, hpool, hc⟩ := h1
    subst hb
    subst hpool
    subst hc
    rw [heq] at h2
    simp only [Prod.mk.injEq] at h2
    obtain ⟨hb2, hpool2, hc2⟩ := h2
    exact ⟨by rw [hb2], hpool2.symm, hc2.symm⟩
  · rw [heq] at h1
    simp only [Prod.mk.injEq] at h1
    obtain ⟨hb, hpool, hc⟩ := h1
    have hpt : r1.point = candidate := by rw [← hb]
    rw [hb] at hpool
    rw [← hpool, ← hc] at h2
    have hmem : r1 ∈ pool ++ [r1] := List.mem_append_right pool (List.mem_cons_self _ _)
    have hzero : dist2 candidate r1.point = 0 := by
      rw [hpt]
      exact dist2_self candidate
    rcases find_nearest_cases candidate (pool ++ [r1]) threshold (c0 + 1) with
      ⟨b2, heq2, hsplit2, hclose2, hmin2⟩ | ⟨hfar2, heq2⟩
    · rw [heq2] at h2
      simp only [Prod.mk.injEq] at h2
      obtain ⟨hb2, hpool2, hc2⟩ := h2
      have hb2zero : dist2 candidate b2.point = 0 := by
        have hle0 := hmin2 r1 hmem
        rw [hzero] at hle0
        exact le_antisymm hle0 (dist2_nonneg _ _)
      have hb2r1 : b2 = r1 := by
        obtain ⟨pre, post, hs, _⟩ := hsplit2
        have hb2mem : b2 ∈ pool ++ [r1] := by
          rw [hs]
          exact List.mem_append_right pre (List.mem_cons_self b2 post)
        rcases List.mem_append.mp hb2mem with hin | hin
        · have hge := hfar b2 hin
          rw [hb2zero] at hge
          exact absurd hge (not_le.mpr hthr2)
        · simpa using hin
      refine ⟨?_, ?_, ?_⟩
      · rw [← hb2, hb2r1]
      · rw [← hpool2, hpool]
      · rw [← hc2, hc]
    · have hcontra := hfar2 r1 hmem
      rw [hzero] at hcontra
      exact absurd hcontra (not_le.mpr hthr2)

/-- A floating node created at candidate point (3, 4) with fresh id 7. -/
def connN : Conn :=
  { id := 7, point := (3, 4), type := ConnType.arrow, shape_id := none, side := none }

theorem find_nearest_connection_idempotent_witness :
    connN.id = connN.id ∧ [connN] = [connN] ∧ (8 : Nat) = 8 :=
  find_nearest_connection_idempotent (3, 4) [] 50 7 (by norm_num)
    connN [connN] 8
    (by norm_num [find_nearest_connection, findBest, get_next_connection_id, connN])
    connN [connN] 8
    (by norm_num [find_nearest_connection, findBest, dist2, connN])

/-! ### C6: no self-loops, no duplicates -/

/-- Helper: membership in `insertEdge` is membership in the set or equality. -/
theorem mem_insertEdge {s : List (Option Nat × Option Nat)}
    {e x : Option Nat × Option Nat} (h : x ∈ insertEdge s e) : x ∈ s ∨ x = e := by
  by_cases he : e ∈ s
  · simp [insertEdge, he] at h
    exact Or.inl h
  · simp [insertEdge, he] at h
    rcases h with h | h
    · exact Or.inl h
    · exact Or.inr h

/-- Helper: `insertEdge` preserves membership. -/
theorem mem_insertEdge_of_mem {s : List (Option Nat × Option Nat)}
    {e x : Option Nat × Option Nat} (h : x ∈ s) : x ∈ insertEdge s e := by
  by_cases he : e ∈ s <;> simp [insertEdge, he, h]

/-- Helper: `insertEdge` puts its argument in the set. -/
theorem self_mem_insertEdge (s : List (Option Nat × Option Nat))
    (e : Option Nat × Option Nat) : e ∈ insertEdge s e := by
  by_cases he : e ∈ s <;> simp [insertEdge, he]

/-- Helper: `insertEdge` preserves freedom from duplicates. -/
theorem insertEdge_nodup {s : List (Option Nat × Option Nat)}
    (e : Option Nat × Option Nat) (h : s.Nodup) : (insertEdge s e).Nodup := by
  by_cases he : e ∈ s
  · simpa [insertEdge, he] using h
  · simp [insertEdge, he, List.nodup_append, h]

/-- Helper: `recordEdges` preserves freedom from duplicates. -/
theorem recordEdges_nodup (pool : List Conn) (start_id : Nat)
    (start_shape : Option Nat) (visited : List Nat) :
    ∀ acc : List (Option Nat × Option Nat), acc.Nodup →
      (recordEdges pool start_id start_shape visited acc).Nodup := by
  induction visited with
  | nil => intro acc h; exact h
  | cons cid rest ih =>
    intro acc h
    rw [recordEdges, List.foldl_cons]
    apply ih
    by_cases hs : cid = start_id
    · simpa [hs] using h
    · simp only [hs, if_false]
      rcases hnode : get_node_by_id cid pool with _ | node
      · exact h
      · by_cases ht : node.type = ConnType.shape
        · simpa [ht] using insertEdge_nodup _ h
        · simpa [ht] using h

/-- Helper: the outer fold of `collapse_arrow_chains` preserves freedom from
duplicates. -/
theorem collapseFold_nodup (pool : List Conn) (arrows : List ArrowConn) :
    ∀ (l : List Conn) (acc : List (Option Nat × Option Nat)), acc.Nodup →
      (l.foldl (collapseStep pool arrows) acc).Nodup := by
  intro l
  induction l with
  | nil => intro acc h; exact h
  | cons conn rest ih =>
    intro acc h
    rw [List.foldl_cons]
    apply ih
    unfold collapseStep
    by_cases ht : conn.type = ConnType.shape
    · simpa [ht] using recordEdges_nodup pool conn.id conn.shape_id _ acc h
    · simpa [ht] using h

/-- C6: the final edge collection of `collapse_arrow_chains` contains no
self-loop — every surviving pair has distinct endpoints — and no duplicate
pair (the Python `set` is a duplicate-free list in the embedding). -/
theorem collapse_arrow_chains_no_self_loops
    (connections_pool : List Conn) (arrow_connections : List ArrowConn) :
    (∀ e ∈ collapse_arrow_chains connections_pool arrow_connections, e.1 ≠ e.2) ∧
    (collapse_arrow_chains connections_pool arrow_connections).Nodup := by
  constructor
  · intro e he
    have := List.of_mem_filter he
    simpa using this
  · exact List.Nodup.filter _
      (collapseFold_nodup connections_pool arrow_connections connections_pool [] List.nodup_nil)

theorem collapse_arrow_chains_no_self_loops_witness :
    ((some 0 : Option Nat), (some 1 : Option Nat)).1 ≠
      ((some 0 : Option Nat), (some 1 : Option Nat)).2 :=
  (collapse_arrow_chains_no_self_loops poolW arrowsW).1 (some 0, some 1) (by decide)

/-! ### C9: the BFS terminates -/

/-- Helper: visiting a node strictly shrinks the set of not-yet-visited
nodes drawn from the universe `U`. -/
theorem filter_not_mem_cons_length {U visited : List Nat} {current : Nat}
    (hcurU : current ∈ U) (hv : current ∉ visited) :
    (U.dedup.filter (fun z => z ∉ current :: visited)).length + 1 ≤
      (U.dedup.filter (fun z => z ∉ visited)).length := by
  have hAnodup : (U.dedup.filter (fun z => z ∉ visited)).Nodup :=
    (List.nodup_dedup U).filter _
  have hcurA : current ∈ U.dedup.filter (fun z => z ∉ visited) :=
    List.mem_filter.mpr ⟨List.mem_dedup.mpr hcurU, by simpa using hv⟩
  have hsplit : U.dedup.filter (fun z => z ∉ current :: visited) =
      (U.dedup.filter (fun z => z ∉ visited)).filter (fun z => z ≠ current) := by
    rw [List.filter_filter]
    apply List.filter_congr
    intro z _
    by_cases h1 : z = current <;> by_cases h2 : z ∈ visited <;>
      simp [List.mem_cons, h1, h2]
  rw [hsplit]
  have herase : (U.dedup.filter (fun z => z ∉ visited)).filter (fun z => z ≠ current) =
      (U.dedup.filter (fun z => z ∉ visited)).erase current := by
    rw [List.Nodup.erase_eq_filter hAnodup]
    apply List.filter_congr
    intro z _
    by_cases h : z = current <;> simp [h]
  rw [herase, List.length_erase_of_mem hcurA]
  have : 1 ≤ (U.dedup.filter (fun z => z ∉ visited)).length :=
    List.length_pos.mpr (List.ne_nil_of_mem hcurA)
  omega

/-- Helper: with every neighbor list drawn from (and no longer than) a fixed
universe `U`, the BFS exits by emptying its queue once the fuel covers the
current queue plus one full round per unvisited universe node. -/
theorem bfsAux_terminates (adj : Nat → List Nat) (U : List Nat)
    (hadj : ∀ x y, y ∈ adj x → y ∈ U) (hlen : ∀ x, (adj x).length ≤ U.length) :
    ∀ (fuel : Nat) (visited queue : List Nat), (∀ y ∈ queue, y ∈ U) →
      queue.length + (U.length + 1) *
          ((U.dedup.filter (fun z => z ∉ visited)).length + 1) ≤ fuel →
      ∃ v, bfsAux adj fuel visited queue = some v := by
  intro fuel
  induction fuel with
  | zero =>
    intro visited queue hq hb
    cases queue with
    | nil => exact ⟨visited, rfl⟩
    | cons current rest =>
      exfalso
      have h1 : 1 ≤ (U.length + 1) *
          ((U.dedup.filter (fun z => z ∉ visited)).length + 1) :=
        Nat.one_le_iff_ne_zero.mpr
          (Nat.mul_ne_zero (Nat.succ_ne_zero _) (Nat.succ_ne_zero _))
      simp only [List.length_cons] at hb
      omega
  | succ fuel ih =>
    intro visited queue hq hb
    cases queue with
    | nil => exact ⟨visited, rfl⟩
    | cons current rest =>
      by_cases hv : current ∈ visited
      · have hstep : bfsAux adj (fuel + 1) visited (current :: rest) =
            bfsAux adj fuel visited rest := by
          simp [bfsAux, hv]
        rw [hstep]
        apply ih visited rest (fun y hy => hq y (List.mem_cons_of_mem _ hy))
        simp only [List.length_cons] at hb
        omega
      · have hstep : bfsAux adj (fuel + 1) visited (current :: rest) =
            bfsAux adj fuel (current :: visited)
              (rest ++ (adj current).filter (fun nb => nb ∉ current :: visited)) := by
          simp [bfsAux, hv]
        rw [hstep]
        apply ih
        · intro y hy
          rcases List.mem_append.mp hy with hy | hy
          · exact hq y (List.mem_cons_of_mem _ hy)
          · exact hadj current y (List.mem_filter.mp hy).1
        · have hflen : ((adj current).filter (fun nb => nb ∉ current :: visited)).length ≤
              U.length := le_trans (List.length_filter_le _ _) (hlen current)
          have hm : (U.dedup.filter (fun z => z ∉ current :: visited)).length + 1 ≤
              (U.dedup.filter (fun z => z ∉ visited)).length :=
            filter_not_mem_cons_length (hq current (List.mem_cons_self _ _)) hv
          have hmul : (U.length + 1) *
              ((U.dedup.filter (fun z => z ∉ current :: visited)).length + 1) +
                (U.length + 1) ≤
              (U.length + 1) *
                ((U.dedup.filter (fun z => z ∉ visited)).length + 1) := by
            have h2 : (U.dedup.filter (fun z => z ∉ current :: visited)).length + 2 ≤
                (U.dedup.filter (fun z => z ∉ visited)).length + 1 := by omega
            calc (U.length + 1) *
                ((U.dedup.filter (fun z => z ∉ current :: visited)).length + 1) +
                  (U.length + 1)
                = (U.length + 1) *
                  ((U.dedup.filter (fun z => z ∉ current :: visited)).length + 2) := by
                  ring
              _ ≤ (U.length + 1) *
                  ((U.dedup.filter (fun z => z ∉ visited)).length + 1) :=
                  Nat.mul_le_mul_left _ h2
          simp only [List.length_cons, List.length_append] at hb ⊢
          omega

/-- Helper: the visited list the BFS returns is duplicate-free — ids are
added only when absent, i.e. each id is expanded at most once. -/
theorem bfsAux_nodup (adj : Nat → List Nat) :
    ∀ (fuel : Nat) (visited queue v : List Nat), visited.Nodup →
      bfsAux adj fuel visited queue = some v → v.Nodup := by
  intro fuel
  induction fuel with
  | zero =>
    intro visited queue v hn hrun
    cases queue with
    | nil =>
      have hvv : visited = v := by simpa [bfsAux] using hrun
      rw [← hvv]
      exact hn
    | cons current rest => simp [bfsAux] at hrun
  | succ fuel ih =>
    intro visited queue v hn hrun
    cases queue with
    | nil =>
      have hvv : visited = v := by simpa [bfsAux] using hrun
      rw [← hvv]
      exact hn
    | cons current rest =>
      by_cases hv : current ∈ visited
      · rw [show bfsAux adj (fuel + 1) visited (current :: rest) =
            bfsAux adj fuel visited rest from by simp [bfsAux, hv]] at hrun
        exact ih visited rest v hn hrun
      · rw [show bfsAux adj (fuel + 1) visited (current :: rest) =
            bfsAux adj fuel (current :: visited)
              (rest ++ (adj current).filter (fun nb => nb ∉ current :: visited))
            from by simp [bfsAux, hv]] at hrun
        exact ih _ _ v (List.nodup_cons.mpr ⟨hv, hn⟩) hrun

/-- Helper: when the BFS exits normally, the returned visited set contains
the initial visited set and queue, and — if every visited node's neighbors
sit in the visited set or the queue — it is closed under the adjacency. -/
theorem bfsAux_closure (adj : Nat → List Nat) :
    ∀ (fuel : Nat) (visited queue v : List Nat),
      bfsAux adj fuel visited queue = some v →
      (∀ x ∈ visited, x ∈ v) ∧ (∀ x ∈ queue, x ∈ v) ∧
      ((∀ x ∈ visited, ∀ y ∈ adj x, y ∈ visited ∨ y ∈ queue) →
        ∀ x ∈ v, ∀ y ∈ adj x, y ∈ v) := by
  intro fuel
  induction fuel with
  | zero =>
    intro visited queue v hrun
    cases queue with
    | nil =>
      have hvv : visited = v := by simpa [bfsAux] using hrun
      subst hvv
      refine ⟨fun x hx => hx, ?_, ?_⟩
      · intro x hx
        exact absurd hx (List.not_mem_nil x)
      · intro hcl x hx y hy
        rcases hcl x hx y hy with h | h
        · exact h
        · exact absurd h (List.not_mem_nil y)
    | cons current rest => simp [bfsAux] at hrun
  | succ fuel ih =>
    intro visited queue v hrun
    cases queue with
    | nil =>
      have hvv : visited = v := by simpa [bfsAux] using hrun
      subst hvv
      refine ⟨fun x hx => hx, ?_, ?_⟩
      · intro x hx
        exact absurd hx (List.not_mem_nil x)
      · intro hcl x hx y hy
        rcases hcl x hx y hy with h | h
        · exact h
        · exact absurd h (List.not_mem_nil y)
    | cons current rest =>
      by_cases hv : current ∈ visited
      · rw [show bfsAux adj (fuel + 1) visited (current :: rest) =
            bfsAux adj fuel visited rest from by simp [bfsAux, hv]] at hrun
        obtain ⟨ih1, ih2, ih3⟩ := ih visited rest v hrun
        refine ⟨ih1, ?_, ?_⟩
        · intro x hx
          rcases List.mem_cons.mp hx with hx | hx
          · rw [hx]
            exact ih1 current hv
          · exact ih2 x hx
        · intro hcl
          apply ih3
          intro x hx y hy
          rcases hcl x hx y hy with h | h
          · exact Or.inl h
          · rcases List.mem_cons.mp h with h | h
            · rw [h]
              exact Or.inl hv
            · exact Or.inr h
      · rw [show bfsAux adj (fuel + 1) visited (current :: rest) =
            bfsAux adj fuel (current :: visited)
              (rest ++ (adj current).filter (fun nb => nb ∉ current :: visited))
            from by simp [bfsAux, hv]] at hrun
        obtain ⟨ih1, ih2, ih3⟩ := ih _ _ v hrun
        refine ⟨?_, ?_, ?_⟩
        · intro x hx
          exact ih1 x (List.mem_cons_of_mem _ hx)
        · intro x hx
          rcases List.mem_cons.mp hx with hx | hx
          · rw [hx]
            exact ih1 current (List.mem_cons_self _ _)
          · exact ih2 x (List.mem_append_left _ hx)
        · intro hcl
          apply ih3
          intro x hx y hy
          rcases List.mem_cons.mp hx with hx | hx
          · by_cases hyv : y ∈ current :: visited
            · exact Or.inl hyv
            · refine Or.inr (List.mem_append_right _ ?_)
              rw [hx] at hy
              exact List.mem_filter.mpr ⟨hy, by simpa using hyv⟩
          · rcases hcl x hx y hy with h | h
            · exact Or.inl (List.mem_cons_of_mem _ h)
            · rcases List.mem_cons.mp h with h | h
              · rw [h]
                exact Or.inl (List.mem_cons_self _ _)
              · exact Or.inr (List.mem_append_left _ h)

/-- Reachability along the tail-to-tip adjacency relation: the reflexive
transitive closure of `y ∈ adj x`. -/
inductive Reach (adj : Nat → List Nat) : Nat → Nat → Prop where
  | refl (a : Nat) : Reach adj a a
  | step {a b c : Nat} : Reach adj a b → c ∈ adj b → Reach adj a c

/-- Helper: every node reachable from the seed is in the visited set the
BFS returns. -/
theorem bfsAux_complete (adj : Nat → List Nat) (fuel : Nat) (start u : Nat)
    (v : List Nat) (hrun : bfsAux adj fuel [] [start] = some v)
    (hreach : Reach adj start u) : u ∈ v := by
  obtain ⟨h1, h2, h3⟩ := bfsAux_closure adj fuel [] [start] v hrun
  have hcl : ∀ x ∈ v, ∀ y ∈ adj x, y ∈ v :=
    h3 (fun x hx => absurd hx (List.not_mem_nil x))
  induction hreach with
  | refl => exact h2 start (List.mem_cons_self _ _)
  | step hr hc ih => exact hcl _ ih _ hc

/-- Helper: the fuel `collapse_arrow_chains` allots is always enough — the
BFS from any seed id exits by emptying its queue. -/
theorem bfs_seed_terminates (arrows : List ArrowConn) (start : Nat) :
    ∃ v, bfsAux (adjOf arrows) (bfsFuel arrows) [] [start] = some v := by
  refine bfsAux_terminates (adjOf arrows)
    (start :: arrows.map (fun a => a.tip.id)) ?_ ?_ (bfsFuel arrows) [] [start] ?_ ?_
  · intro x y hy
    unfold adjOf at hy
    obtain ⟨a, ha, htip⟩ := List.mem_map.mp hy
    exact List.mem_cons_of_mem _
      (List.mem_map.mpr ⟨a, (List.mem_filter.mp ha).1, htip⟩)
  · intro x
    unfold adjOf
    rw [List.length_map, List.length_cons, List.length_map]
    exact le_trans (List.length_filter_le _ _) (Nat.le_succ _)
  · intro y hy
    rcases List.mem_cons.mp hy with hy | hy
    · rw [hy]
      exact List.mem_cons_self _ _
    · exact absurd hy (List.not_mem_nil y)
  · have hm : (((start :: arrows.map (fun a => a.tip.id)).dedup.filter
        (fun z => z ∉ ([] : List Nat))).length) ≤ arrows.length + 1 := by
      calc (((start :: arrows.map (fun a => a.tip.id)).dedup.filter
            (fun z => z ∉ ([] : List Nat))).length)
          ≤ (start :: arrows.map (fun a => a.tip.id)).dedup.length :=
            List.length_filter_le _ _
        _ ≤ (start :: arrows.map (fun a => a.tip.id)).length :=
            List.Sublist.length_le (List.dedup_sublist _)
        _ = arrows.length + 1 := by simp
    have hLeq : (start :: arrows.map (fun a => a.tip.id)).length =
        arrows.length + 1 := by simp
    rw [hLeq]
    have hmul : (arrows.length + 1 + 1) *
        ((((start :: arrows.map (fun a => a.tip.id)).dedup.filter
          (fun z => z ∉ ([] : List Nat))).length) + 1) ≤
        (arrows.length + 2) * (arrows.length + 2) :=
      Nat.mul_le_mul (by omega) (by omega)
    unfold bfsFuel
    simp only [List.length_cons, List.length_nil]
    omega

/-! ### C9: termination of the chain-collapsing BFS -/

/-- C9: for every arrow-link list — cycles in the tail-to-tip adjacency
included — and every seed id, the BFS run by `collapse_arrow_chains` with
the fuel it allots exits by exhausting its queue (`some` result, never the
fuel-out branch), and its visited set is duplicate-free: each node id is
dequeued-and-expanded at most once per seed anchor. -/
theorem collapse_bfs_terminates (arrow_connections : List ArrowConn) (start : Nat) :
    ∃ v, bfsAux (adjOf arrow_connections) (bfsFuel arrow_connections) [] [start] =
        some v ∧ v.Nodup := by
  obtain ⟨v, hv⟩ := bfs_seed_terminates arrow_connections start
  exact ⟨v, hv, bfsAux_nodup _ _ _ _ _ List.nodup_nil hv⟩

/-! ### C1: transitive chain collapse -/

/-- Helper: a successful `get_node_by_id` lookup returns a pool member
carrying the requested id. -/
theorem get_node_by_id_mem (node_id : Nat) :
    ∀ (pool : List Conn) (node : Conn),
      get_node_by_id node_id pool = some node → node ∈ pool ∧ node.id = node_id := by
  intro pool
  induction pool with
  | nil => intro node h; simp [get_node_by_id] at h
  | cons c rest ih =>
    intro node h
    by_cases hc : c.id = node_id
    · rw [show get_node_by_id node_id (c :: rest) = some c from by
        simp [get_node_by_id, hc]] at h
      obtain rfl := Option.some.inj h
      exact ⟨List.mem_cons_self _ _, hc⟩
    · rw [show get_node_by_id node_id (c :: rest) = get_node_by_id node_id rest from by
        simp [get_node_by_id, hc]] at h
      obtain ⟨hmem, hid⟩ := ih node h
      exact ⟨List.mem_cons_of_mem _ hmem, hid⟩

/-- Helper: one unfolding step of `recordEdges`. -/
theorem recordEdges_cons (pool : List Conn) (start_id : Nat)
    (start_shape : Option Nat) (cid : Nat) (rest : List Nat)
    (acc : List (Option Nat × Option Nat)) :
    recordEdges pool start_id start_shape (cid :: rest) acc =
      recordEdges pool start_id start_shape rest
        (if cid = start_id then acc
         else
           match get_node_by_id cid pool with
           | some node =>
             if node.type = ConnType.shape then
               insertEdge acc (start_shape, node.shape_id)
             else acc
           | none => acc) := rfl

/-- Helper: `recordEdges` preserves membership in the accumulator. -/
theorem mem_recordEdges_of_mem (pool : List Conn) (start_id : Nat)
    (start_shape : Option Nat) :
    ∀ (visited : List Nat) (acc : List (Option Nat × Option Nat))
      (e : Option Nat × Option Nat), e ∈ acc →
      e ∈ recordEdges pool start_id start_shape visited acc := by
  intro visited
  induction visited with
  | nil => intro acc e he; exact he
  | cons cid rest ih =>
    intro acc e he
    rw [recordEdges_cons]
    apply ih
    by_cases hs : cid = start_id
    · simpa [hs] using he
    · simp only [hs, if_false]
      rcases hnode : get_node_by_id cid pool with _ | node
      · exact he
      · by_cases ht : node.type = ConnType.shape
        · simpa [ht] using mem_insertEdge_of_mem he
        · simpa [ht] using he

/-- Helper: when a non-seed id in the visited list looks up to a
shape-anchor node, `recordEdges` records the corresponding edge. -/
theorem mem_recordEdges_of_visited (pool : List Conn) (start_id : Nat)
    (start_shape : Option Nat) (u : Nat) (node : Conn)
    (hne : u ≠ start_id) (hfind : get_node_by_id u pool = some node)
    (hnt : node.type = ConnType.shape) :
    ∀ (visited : List Nat) (acc : List (Option Nat × Option Nat)), u ∈ visited →
      (start_shape, node.shape_id) ∈
        recordEdges pool start_id start_shape visited acc := by
  intro visited
  induction visited with
  | nil =>
    intro acc hu
    exact absurd hu (List.not_mem_nil u)
  | cons cid rest ih =>
    intro acc hu
    rcases List.mem_cons.mp hu with hu | hu
    · subst hu
      rw [recordEdges_cons]
      apply mem_recordEdges_of_mem
      simp only [hne, if_false, hfind, hnt, if_true]
      exact self_mem_insertEdge _ _
    · rw [recordEdges_cons]
      exact ih _ hu

/-- Helper: the outer fold of `collapse_arrow_chains` preserves membership
in the accumulator. -/
theorem mem_collapseFold_of_mem (pool : List Conn) (arrows : List ArrowConn) :
    ∀ (l : List Conn) (acc : List (Option Nat × Option Nat))
      (e : Option Nat × Option Nat), e ∈ acc →
      e ∈ l.foldl (collapseStep pool arrows) acc := by
  intro l
  induction l with
  | nil => intro acc e he; exact he
  | cons c rest ih =>
    intro acc e he
    rw [List.foldl_cons]
    apply ih
    unfold collapseStep
    by_cases ht : c.type = ConnType.shape
    · simpa [ht] using mem_recordEdges_of_mem pool c.id c.shape_id _ acc e he
    · simpa [ht] using he

/-- Helper: an edge recorded while processing some shape-typed pool node is
in the outer fold's result. -/
theorem mem_collapseFold_of_conn (pool : List Conn) (arrows : List ArrowConn)
    (conn : Conn) (hct : conn.type = ConnType.shape)
    (e : Option Nat × Option Nat)
    (he : ∀ acc, e ∈ recordEdges pool conn.id conn.shape_id
        ((bfsAux (adjOf arrows) (bfsFuel arrows) [] [conn.id]).getD []) acc) :
    ∀ (l : List Conn), conn ∈ l →
      ∀ acc, e ∈ l.foldl (collapseStep pool arrows) acc := by
  intro l
  induction l with
  | nil =>
    intro h
    exact absurd h (List.not_mem_nil conn)
  | cons c rest ih =>
    intro hmem acc
    rcases List.mem_cons.mp hmem with hc | hc
    · subst hc
      rw [List.foldl_cons]
      apply mem_collapseFold_of_mem
      unfold collapseStep
      simp only [hct, if_true]
      exact he acc
    · rw [List.foldl_cons]
      exact ih hc _

/-- C1: the breadth-first traversal of `collapse_arrow_chains`, seeded at a
shape-anchor node, records an edge to every other shape's anchor reachable
through any chain of arrow links (floating nodes acting as pass-through
waypoints); after the self-loop filter, the final edge `(s, t)` survives for
distinct shapes `s ≠ t`.  In particular, the spec's scenario — anchors at
(0,0) and (200,0) joined through a floating node at (100,0) by two arrows —
yields the edge `(A, B)` (see the witness). -/
theorem collapse_arrow_chains_transitive
    (connections_pool : List Conn) (arrow_connections : List ArrowConn)
    (conn node : Conn) (s t u : Nat)
    (hconn : conn ∈ connections_pool) (hct : conn.type = ConnType.shape)
    (hcs : conn.shape_id = some s)
    (hreach : Reach (adjOf arrow_connections) conn.id u) (hne : u ≠ conn.id)
    (hfind : get_node_by_id u connections_pool = some node)
    (hnt : node.type = ConnType.shape) (hns : node.shape_id = some t)
    (hst : s ≠ t) :
    (some s, some t) ∈ collapse_arrow_chains connections_pool arrow_connections := by
  obtain ⟨v, hv⟩ := bfs_seed_terminates arrow_connections conn.id
  have hu : u ∈ v := bfsAux_complete _ _ _ _ _ hv hreach
  have he : ∀ acc, (conn.shape_id, node.shape_id) ∈
      recordEdges connections_pool conn.id conn.shape_id
        ((bfsAux (adjOf arrow_connections) (bfsFuel arrow_connections)
          [] [conn.id]).getD []) acc := by
    intro acc
    rw [hv]
    exact mem_recordEdges_of_visited connections_pool conn.id conn.shape_id u node
      hne hfind hnt v acc hu
  have hin : (conn.shape_id, node.shape_id) ∈
      connections_pool.foldl (collapseStep connections_pool arrow_connections) [] :=
    mem_collapseFold_of_conn connections_pool arrow_connections conn hct _ he
      connections_pool hconn []
  unfold collapse_arrow_chains
  rw [← hcs, ← hns]
  apply List.mem_filter.mpr
  refine ⟨hin, ?_⟩
  rw [hcs, hns]
  simpa using hst

/-- Shape B's anchor node in `poolW`. -/
def connB : Conn :=
  { id := 1, point := (200, 0), type := ConnType.shape,
    shape_id := some 1, side := some "top" }

theorem collapse_arrow_chains_transitive_witness :
    ((some 0 : Option Nat), (some 1 : Option Nat)) ∈
      collapse_arrow_chains poolW arrowsW :=
  collapse_arrow_chains_transitive poolW arrowsW connA connB 0 1 1
    (by decide) (by decide) (by decide)
    (Reach.step
      (Reach.step (Reach.refl connA.id)
        (by decide : (2 : Nat) ∈ adjOf arrowsW connA.id))
      (by decide : (1 : Nat) ∈ adjOf arrowsW 2))
    (by decide) (by decide) (by decide) (by decide) (by decide)

/-! ### C10: final edges stay inside the matrix bounds -/

/-- Helper: shape ids are assigned densely, as the length of the list at
append time: the id sequence of `draw_shapes` is `0, 1, 2, ...`. -/
theorem draw_shapes_fold_ids (results : List Det) :
    ∀ acc : List Shape, acc.map Shape.id = List.range acc.length →
      (results.foldl drawStep acc).map Shape.id =
        List.range (results.foldl drawStep acc).length := by
  induction results with
  | nil => intro acc h; exact h
  | cons d rest ih =>
    intro acc h
    rw [List.foldl_cons]
    apply ih
    unfold drawStep
    by_cases hcond : d.class_id ∉ ([0, 1, 2, 3] : List Nat) ∧ d.class_id ≠ 5
    · rw [if_pos hcond]
      rcases hmap : SHAPE_MAP d.class_id with _ | ty
      · exact h
      · simp [h, List.range_succ]
    · rw [if_neg hcond]
      exact h

/-- Helper: every id of a shape produced by `draw_shapes` is below the
number of shapes, and conversely position `k` holds id `k`. -/
theorem draw_shapes_ids (results : List Det) :
    (draw_shapes results).map Shape.id = List.range (draw_shapes results).length :=
  draw_shapes_fold_ids results [] (by simp)

/-- Helper: a member of a mapped-to-range list has its value below the
length and bounded by its position. -/
theorem mem_of_map_range {shapes : List Shape}
    (h : shapes.map Shape.id = List.range shapes.length) :
    ∀ sh ∈ shapes, sh.id < shapes.length := by
  intro sh hsh
  have : sh.id ∈ shapes.map Shape.id := List.mem_map.mpr ⟨sh, hsh, rfl⟩
  rw [h] at this
  exact List.mem_range.mp this

/-- Helper: every node seeded by `build_connections_pool` is shape-typed and
carries the id of one of the seeded shapes. -/
theorem build_connections_pool_mem (shapes : List Shape) :
    ∀ (acc : List Conn × Nat) (c : Conn), c ∈ (shapes.foldl seedStep acc).1 →
      c ∈ acc.1 ∨ (c.type = ConnType.shape ∧ ∃ sh ∈ shapes, c.shape_id = some sh.id) := by
  induction shapes with
  | nil => intro acc c h; exact Or.inl h
  | cons sh rest ih =>
    intro acc c h
    rw [List.foldl_cons] at h
    rcases ih (seedStep acc sh) c h with hacc | ⟨ht, sh', hsh', hid⟩
    · unfold seedStep at hacc
      simp only [List.mem_append] at hacc
      rcases hacc with hacc | hnew
      · exact Or.inl hacc
      · simp only [List.mem_cons, List.not_mem_nil, or_false] at hnew
        refine Or.inr ⟨?_, sh, List.mem_cons_self _ _, ?_⟩ <;>
          rcases hnew with h1 | h1 | h1 | h1 <;> rw [h1]
    · exact Or.inr ⟨ht, sh', List.mem_cons_of_mem _ hsh', hid⟩

/-- Helper: `find_nearest_connection` only ever appends floating
(`'arrow'`-typed) nodes to the pool. -/
theorem find_nearest_connection_pool_mem (candidate : ℚ × ℚ) (pool : List Conn)
    (threshold : ℚ) (c0 : Nat) (c : Conn)
    (h : c ∈ (find_nearest_connection candidate pool threshold c0).2.1) :
    c ∈ pool ∨ c.type = ConnType.arrow := by
  rcases find_nearest_cases candidate pool threshold c0 with
    ⟨b, heq, _, _, _⟩ | ⟨_, heq⟩
  · rw [heq] at h
    exact Or.inl h
  · rw [heq] at h
    simp only [List.mem_append, List.mem_cons, List.not_mem_nil, or_false] at h
    rcases h with h | h
    · exact Or.inl h
    · rw [h]
      exact Or.inr rfl

/-- Helper: the arrow-processing fold only ever appends floating nodes. -/
theorem process_fold_pool_mem (dets : List Det) :
    ∀ (acc : List ArrowConn × List Conn × Nat) (c : Conn),
      c ∈ (dets.foldl processStep acc).2.1 →
      c ∈ acc.2.1 ∨ c.type = ConnType.arrow := by
  induction dets with
  | nil => intro acc c h; exact Or.inl h
  | cons d rest ih =>
    intro acc c h
    rw [List.foldl_cons] at h
    rcases ih (processStep acc d) c h with hacc | ht
    · unfold processStep at hacc
      rcases hcand : arrowCandidates d with _ | ⟨tc, pc⟩
      · rw [hcand] at hacc
        exact Or.inl hacc
      · rw [hcand] at hacc
        simp only at hacc
        rcases find_nearest_connection_pool_mem pc _ 50 _ c hacc with hmid | ht
        · rcases find_nearest_connection_pool_mem tc _ 50 _ c hmid with hfst | ht
          · exact Or.inl hfst
          · exact Or.inr ht
        · exact Or.inr ht
    · exact Or.inr ht

/-- Helper: every shape-typed node of the pool after arrow processing was
seeded from a shape, so its `shape_id` is `some s` with `s` a shape id. -/
theorem pool_after_arrows_shape_nodes (results : List Det) (c0 : Nat) (c : Conn)
    (h : c ∈ (process_arrow_detections results
      (build_connections_pool (draw_shapes results) c0).1
      (build_connections_pool (draw_shapes results) c0).2).2.1)
    (ht : c.type = ConnType.shape) :
    ∃ s, c.shape_id = some s ∧ s < (draw_shapes results).length := by
  unfold process_arrow_detections at h
  rcases process_fold_pool_mem _ _ c h with hpool | harr
  · unfold build_connections_pool at hpool
    rcases build_connections_pool_mem (draw_shapes results) ([], c0) c hpool with
      hnil | ⟨_, sh, hsh, hid⟩
    · exact absurd hnil (List.not_mem_nil c)
    · exact ⟨sh.id, hid, mem_of_map_range (draw_shapes_ids results) sh hsh⟩
  · rw [ht] at harr
    cases harr

/-- Helper: every edge the collapsing fold adds pairs the `shape_id`s of two
shape-typed pool nodes. -/
theorem recordEdges_mem_rev (pool : List Conn) (start_id : Nat)
    (start_shape : Option Nat) :
    ∀ (visited : List Nat) (acc : List (Option Nat × Option Nat))
      (e : Option Nat × Option Nat),
      e ∈ recordEdges pool start_id start_shape visited acc →
      e ∈ acc ∨ ∃ n ∈ pool, n.type = ConnType.shape ∧ e = (start_shape, n.shape_id) := by
  intro visited
  induction visited with
  | nil => intro acc e h; exact Or.inl h
  | cons cid rest ih =>
    intro acc e h
    rw [recordEdges_cons] at h
    rcases ih _ e h with hacc | hfound
    · by_cases hs : cid = start_id
      · simp only [hs, if_true] at hacc
        exact Or.inl hacc
      · simp only [hs, if_false] at hacc
        rcases hnode : get_node_by_id cid pool with _ | node
        · rw [hnode] at hacc
          exact Or.inl hacc
        · rw [hnode] at hacc
          by_cases htn : node.type = ConnType.shape
          · simp only [htn, if_true] at hacc
            rcases mem_insertEdge hacc with hacc | hacc
            · exact Or.inl hacc
            · exact Or.inr ⟨node, (get_node_by_id_mem cid pool node hnode).1, htn, hacc⟩
          · simp only [htn, if_false] at hacc
            exact Or.inl hacc
    · exact Or.inr hfound

/-- Helper: edges produced by the outer collapsing fold come from pairs of
shape-typed pool nodes. -/
theorem collapseFold_mem_rev (pool : List Conn) (arrows : List ArrowConn) :
    ∀ (l : List Conn) (acc : List (Option Nat × Option Nat))
      (e : Option Nat × Option Nat),
      e ∈ l.foldl (collapseStep pool arrows) acc →
      e ∈ acc ∨ ∃ c1, c1.type = ConnType.shape ∧ (∃ n ∈ pool, n.type = ConnType.shape ∧
        e = (c1.shape_id, n.shape_id)) ∧ c1 ∈ l := by
  intro l
  induction l with
  | nil => intro acc e h; exact Or.inl h
  | cons c rest ih =>
    intro acc e h
    rw [List.foldl_cons] at h
    rcases ih _ e h with hacc | ⟨c1, ht1, hfound, hmem⟩
    · unfold collapseStep at hacc
      by_cases ht : c.type = ConnType.shape
      · simp only [ht, if_true] at hacc
        rcases recordEdges_mem_rev pool c.id c.shape_id _ acc e hacc with hacc | ⟨n, hn, htn, he⟩
        · exact Or.inl hacc
        · exact Or.inr ⟨c, ht, ⟨n, hn, htn, he⟩, List.mem_cons_self _ _⟩
      · simp only [ht, if_false] at hacc
        exact Or.inl hacc
    · exact Or.inr ⟨c1, ht1, hfound, List.mem_cons_of_mem _ hmem⟩

/-- Helper: every final edge of `collapse_arrow_chains` pairs the
`shape_id`s of two shape-typed nodes of the pool it was run on. -/
theorem collapse_arrow_chains_mem_rev (pool : List Conn) (arrows : List ArrowConn)
    (e : Option Nat × Option Nat) (h : e ∈ collapse_arrow_chains pool arrows) :
    ∃ c1 ∈ pool, c1.type = ConnType.shape ∧ ∃ n ∈ pool, n.type = ConnType.shape ∧
      e = (c1.shape_id, n.shape_id) := by
  unfold collapse_arrow_chains at h
  have hmem := List.mem_of_mem_filter h
  rcases collapseFold_mem_rev pool arrows pool [] e hmem with hacc | ⟨c1, ht1, ⟨n, hn, htn, he⟩, hc1⟩
  · exact absurd hacc (List.not_mem_nil e)
  · exact ⟨c1, hc1, ht1, n, hn, htn, he⟩

/-- The matrix cell read `matrix[i][j]` (0 outside the matrix), used to
state the matrix/edge equivalence. -/
def entry (m : List (List Nat)) (i j : Nat) : Nat := (m.getD i []).getD j 0

/-- Helper: reading a freshly set list position. -/
theorem getD_set_self {l : List Nat} {i : Nat} (a : Nat) (h : i < l.length) :
    (l.set i a).getD i 0 = a := by
  rw [List.getD_eq_getElem?_getD, List.getElem?_set_self h]
  rfl

/-- Helper: reading away from a set list position. -/
theorem getD_set_ne {l : List α} {i j : Nat} (a d : α) (h : i ≠ j) :
    (l.set i a).getD j d = l.getD j d := by
  rw [List.getD_eq_getElem?_getD, List.getElem?_set_ne h, ← List.getD_eq_getElem?_getD]

/-- Helper: a successful in-bounds `matrix[i][j] = 1` keeps the matrix
square and changes exactly the one cell. -/
theorem matrixSet_spec (m : List (List Nat)) (n i j : Nat)
    (hlen : m.length = n) (hrows : ∀ row ∈ m, row.length = n)
    (hi : i < n) (hj : j < n) :
    ∃ m2, matrixSet m i j = some m2 ∧ m2.length = n ∧
      (∀ row ∈ m2, row.length = n) ∧
      ∀ a b, entry m2 a b = if a = i ∧ b = j then 1 else entry m a b := by
  have hi2 : i < m.length := by omega
  have hrow_mem : m.getD i [] ∈ m := by
    rw [List.getD_eq_getElem?_getD, List.getElem?_eq_getElem hi2]
    exact List.getElem_mem hi2
  have hrowlen : (m.getD i []).length = n := hrows _ hrow_mem
  have hcond : i < m.length ∧ j < (m.getD i []).length := ⟨hi2, by omega⟩
  refine ⟨m.set i ((m.getD i []).set j 1), ?_, ?_, ?_, ?_⟩
  · unfold matrixSet
    rw [if_pos hcond]
  · rw [List.length_set]
    exact hlen
  · intro row hrow
    rcases List.mem_or_eq_of_mem_set hrow with h | h
    · exact hrows row h
    · rw [h, List.length_set]
      exact hrowlen
  · intro a b
    by_cases ha : a = i
    · subst ha
      have hset : (m.set a ((m.getD a []).set j 1)).getD a [] =
          (m.getD a []).set j 1 := by
        rw [List.getD_eq_getElem?_getD, List.getElem?_set_self hi2]
        rfl
      unfold entry
      rw [hset]
      by_cases hb : b = j
      · subst hb
        rw [if_pos ⟨rfl, rfl⟩]
        exact getD_set_self 1 (by omega)
      · rw [if_neg (by tauto)]
        exact getD_set_ne 1 0 (fun h => hb h.symm)
    · rw [if_neg (by tauto)]
      unfold entry
      rw [getD_set_ne _ _ (fun h => ha h.symm)]

/-- Helper: in the all-zero matrix every cell reads 0. -/
theorem entry_replicate (n a b : Nat) :
    entry (List.replicate n (List.replicate n 0)) a b = 0 := by
  unfold entry
  by_cases h : a < n
  · have houter : (List.replicate n (List.replicate n 0)).getD a [] =
        List.replicate n 0 := by
      rw [List.getD_eq_getElem?_getD (List.replicate n (List.replicate n 0)) a,
        List.getElem?_replicate, if_pos h]
      rfl
    rw [houter]
    by_cases hb : b < n
    · rw [List.getD_eq_getElem?_getD, List.getElem?_replicate, if_pos hb]
      rfl
    · rw [List.getD_eq_getElem?_getD, List.getElem?_replicate, if_neg hb]
      rfl
  · have houter : (List.replicate n (List.replicate n 0)).getD a [] = [] := by
      rw [List.getD_eq_getElem?_getD (List.replicate n (List.replicate n 0)) a,
        List.getElem?_replicate, if_neg h]
      rfl
    rw [houter]
    rfl

/-- Helper: folding in-bounds edges over a square matrix succeeds and marks
exactly the edge cells. -/
theorem matrixFold_spec (n : Nat) :
    ∀ (edges : List (Option Nat × Option Nat)) (m : List (List Nat)),
      m.length = n → (∀ row ∈ m, row.length = n) →
      (∀ e ∈ edges, ∃ i j, e = (some i, some j) ∧ i < n ∧ j < n) →
      ∃ m2, edges.foldl matrixStep (some m) = some m2 ∧
        m2.length = n ∧ (∀ row ∈ m2, row.length = n) ∧
        ∀ a b, (entry m2 a b = 1 ↔ ((some a, some b) ∈ edges ∨ entry m a b = 1)) := by
  intro edges
  induction edges with
  | nil =>
    intro m hlen hrows _
    refine ⟨m, rfl, hlen, hrows, ?_⟩
    intro a b
    simp
  | cons e rest ih =>
    intro m hlen hrows hbound
    obtain ⟨i, j, he, hi, hj⟩ := hbound e (List.mem_cons_self _ _)
    obtain ⟨m1, hset, hlen1, hrows1, hcell⟩ := matrixSet_spec m n i j hlen hrows hi hj
    have hstep : matrixStep (some m) e = some m1 := by
      rw [he]
      simpa [matrixStep] using hset
    rw [List.foldl_cons, hstep]
    obtain ⟨m2, hrun, hlen2, hrows2, hiff⟩ := ih m1 hlen1 hrows1
      (fun x hx => hbound x (List.mem_cons_of_mem _ hx))
    refine ⟨m2, hrun, hlen2, hrows2, ?_⟩
    intro a b
    rw [hiff a b, hcell a b]
    by_cases hab : a = i ∧ b = j
    · obtain ⟨rfl, rfl⟩ := hab
      rw [if_pos ⟨rfl, rfl⟩]
      simp [he]
    · rw [if_neg hab]
      rw [he, List.mem_cons]
      simp only [Prod.mk.injEq, Option.some.injEq]
      tauto

/-- Helper: on any in-bounds edge list, `build_nxn_matrix` succeeds with an
NxN matrix whose 1-cells are exactly the edges, and a metadata list that
keeps the shapes' ids in place. -/
theorem build_nxn_matrix_spec (shapes : List Shape)
    (edges : List (Option Nat × Option Nat))
    (hbound : ∀ e ∈ edges, ∃ i j, e = (some i, some j) ∧
      i < shapes.length ∧ j < shapes.length) :
    ∃ m meta, build_nxn_matrix shapes edges = some (m, meta) ∧
      m.length = shapes.length ∧
      (∀ row ∈ m, row.length = shapes.length) ∧
      (∀ a b, entry m a b = 1 ↔ (some a, some b) ∈ edges) ∧
      meta.map ShapeMeta.id = shapes.map Shape.id := by
  obtain ⟨m2, hrun, hlen2, hrows2, hiff⟩ := matrixFold_spec shapes.length edges
    (List.replicate shapes.length (List.replicate shapes.length 0))
    (List.length_replicate _ _)
    (fun row hrow => by
      rw [List.eq_of_mem_replicate hrow]
      exact List.length_replicate _ _)
    hbound
  refine ⟨m2, shapes.map (fun sh =>
    { id := sh.id, class_id := sh.class_id,
      name := (SHAPE_NAME_MAP sh.class_id).getD
        (some ("Class " ++ toString sh.class_id)),
      bbox := (sh.x1, sh.y1, sh.width, sh.height),
      center := (sh.cx, sh.cy) }), ?_, hlen2, hrows2, ?_, ?_⟩
  · have hdef : build_nxn_matrix shapes edges =
        (edges.foldl matrixStep
          (some (List.replicate shapes.length (List.replicate shapes.length 0)))).map
          (fun m => (m, shapes.map (fun sh =>
            { id := sh.id, class_id := sh.class_id,
              name := (SHAPE_NAME_MAP sh.class_id).getD
                (some ("Class " ++ toString sh.class_id)),
              bbox := (sh.x1, sh.y1, sh.width, sh.height),
              center := (sh.cx, sh.cy) }))) := rfl
    rw [hdef, hrun]
    rfl
  · intro a b
    rw [hiff a b, entry_replicate]
    simp
  · rw [List.map_map]
    rfl

/-- Helper: on pipeline-produced pools, every collapsed edge is a pair of
`some` shape ids below the shape count. -/
theorem pipeline_collapse_in_bounds (results : List Det) (c0 : Nat) :
    ∀ e ∈ collapse_arrow_chains
        (process_arrow_detections results
          (build_connections_pool (draw_shapes results) c0).1
          (build_connections_pool (draw_shapes results) c0).2).2.1
        (process_arrow_detections results
          (build_connections_pool (draw_shapes results) c0).1
          (build_connections_pool (draw_shapes results) c0).2).1,
      ∃ i j, e = (some i, some j) ∧ i < (draw_shapes results).length ∧
        j < (draw_shapes results).length := by
  intro e he
  obtain ⟨c1, hc1, ht1, n, hn, htn, hedge⟩ :=
    collapse_arrow_chains_mem_rev _ _ e he
  obtain ⟨s, hs, hslt⟩ := pool_after_arrows_shape_nodes results c0 c1 hc1 ht1
  obtain ⟨t, hts, htlt⟩ := pool_after_arrows_shape_nodes results c0 n hn htn
  exact ⟨s, t, by rw [hedge, hs, hts], hslt, htlt⟩

/-! ### C10: matrix assignments never index out of bounds -/

/-- C10: every edge `(i, j)` that `collapse_arrow_chains` produces on a
pipeline-built pool satisfies `i < N` and `j < N` (shape ids are dense and
reachability edges only pair shape-typed nodes), so every
`matrix[i][j] = 1` assignment in `build_nxn_matrix` is in bounds and the
matrix build completes without an exception (`isSome`). -/
theorem pipeline_matrix_safe (results : List Det) (c0 : Nat) :
    (∀ e ∈ collapse_arrow_chains
        (process_arrow_detections results
          (build_connections_pool (draw_shapes results) c0).1
          (build_connections_pool (draw_shapes results) c0).2).2.1
        (process_arrow_detections results
          (build_connections_pool (draw_shapes results) c0).1
          (build_connections_pool (draw_shapes results) c0).2).1,
      ∃ i j, e = (some i, some j) ∧ i < (draw_shapes results).length ∧
        j < (draw_shapes results).length) ∧
    (build_nxn_matrix (draw_shapes results)
      (collapse_arrow_chains
        (process_arrow_detections results
          (build_connections_pool (draw_shapes results) c0).1
          (build_connections_pool (draw_shapes results) c0).2).2.1
        (process_arrow_detections results
          (build_connections_pool (draw_shapes results) c0).1
          (build_connections_pool (draw_shapes results) c0).2).1)).isSome := by
  refine ⟨pipeline_collapse_in_bounds results c0, ?_⟩
  obtain ⟨m, meta, hbuild, _⟩ :=
    build_nxn_matrix_spec (draw_shapes results) _ (pipeline_collapse_in_bounds results c0)
  rw [hbuild]
  rfl

theorem pipeline_matrix_safe_witness :
    (∃ i j, ((some 0 : Option Nat), (some 1 : Option Nat)) = (some i, some j) ∧
      i < (draw_shapes detsW).length ∧ j < (draw_shapes detsW).length) ∧
    (build_nxn_matrix (draw_shapes detsW)
      (collapse_arrow_chains
        (process_arrow_detections detsW
          (build_connections_pool (draw_shapes detsW) 0).1
          (build_connections_pool (draw_shapes detsW) 0).2).2.1
        (process_arrow_detections detsW
          (build_connections_pool (draw_shapes detsW) 0).1
          (build_connections_pool (draw_shapes detsW) 0).2).1)).isSome :=
  ⟨(pipeline_matrix_safe detsW 0).1 (some 0, some 1)
    (by norm_num [detsW, draw_shapes, drawStep, SHAPE_MAP, build_connections_pool,
      seedStep, get_next_connection_id, process_arrow_detections, processStep,
      arrowCandidates, find_nearest_connection, findBest, dist2,
      collapse_arrow_chains, collapseStep, recordEdges, insertEdge, bfsAux,
      bfsFuel, adjOf, get_node_by_id]),
   (pipeline_matrix_safe detsW 0).2⟩

/-! ### C5: matrix/edge equivalence and stable shape ids -/

/-- C5: on pipeline-produced shapes and final edges, `build_nxn_matrix`
returns an N x N matrix (N = number of shapes) with `matrix[i][j] = 1` iff
`(i, j)` is in the final edge set — for all `i, j` — and neither the shape
list nor the metadata list renumbers shapes: position `k` carries id `k` in
both, so the matrix row/column index is the shape id. -/
theorem build_nxn_matrix_edge_equiv (results : List Det) (c0 : Nat) :
    ∃ m meta,
      build_nxn_matrix (draw_shapes results)
        (collapse_arrow_chains
          (process_arrow_detections results
            (build_connections_pool (draw_shapes results) c0).1
            (build_connections_pool (draw_shapes results) c0).2).2.1
          (process_arrow_detections results
            (build_connections_pool (draw_shapes results) c0).1
            (build_connections_pool (draw_shapes results) c0).2).1) = some (m, meta) ∧
      m.length = (draw_shapes results).length ∧
      (∀ row ∈ m, row.length = (draw_shapes results).length) ∧
      (∀ i j, entry m i j = 1 ↔ (some i, some j) ∈
        collapse_arrow_chains
          (process_arrow_detections results
            (build_connections_pool (draw_shapes results) c0).1
            (build_connections_pool (draw_shapes results) c0).2).2.1
          (process_arrow_detections results
            (build_connections_pool (draw_shapes results) c0).1
            (build_connections_pool (draw_shapes results) c0).2).1) ∧
      (draw_shapes results).map Shape.id = List.range (draw_shapes results).length ∧
      meta.map ShapeMeta.id = List.range (draw_shapes results).length := by
  obtain ⟨m, meta, hbuild, hlen, hrows, hiff, hids⟩ :=
    build_nxn_matrix_spec (draw_shapes results) _ (pipeline_collapse_in_bounds results c0)
  refine ⟨m, meta, hbuild, hlen, hrows, hiff, draw_shapes_ids results, ?_⟩
  rw [hids]
  exact draw_shapes_ids results

theorem build_nxn_matrix_edge_equiv_witness :
    ∃ m meta,
      build_nxn_matrix (draw_shapes detsW)
        (collapse_arrow_chains
          (process_arrow_detections detsW
            (build_connections_pool (draw_shapes detsW) 0).1
            (build_connections_pool (draw_shapes detsW) 0).2).2.1
          (process_arrow_detections detsW
            (build_connections_pool (draw_shapes detsW) 0).1
            (build_connections_pool (draw_shapes detsW) 0).2).1) = some (m, meta) ∧
      m.length = (draw_shapes detsW).length ∧
      (∀ row ∈ m, row.length = (draw_shapes detsW).length) ∧
      (∀ i j, entry m i j = 1 ↔ (some i, some j) ∈
        collapse_arrow_chains
          (process_arrow_detections detsW
            (build_connections_pool (draw_shapes detsW) 0).1
            (build_connections_pool (draw_shapes detsW) 0).2).2.1
          (process_arrow_detections detsW
            (build_connections_pool (draw_shapes detsW) 0).1
            (build_connections_pool (draw_shapes detsW) 0).2).1) ∧
      (draw_shapes detsW).map Shape.id = List.range (draw_shapes detsW).length ∧
      meta.map ShapeMeta.id = List.range (draw_shapes detsW).length :=
  build_nxn_matrix_edge_equiv detsW 0
